import Mathlib

/-!
A shallow embedding of the Python CSP solver in src/Assignment.py.

Python dictionaries preserve insertion order, so a dictionary is embedded as
an association list (List (key × value)); assigning to an existing key keeps
its position, assigning to a fresh key appends.  Mutation is embedded by
explicit state passing: a method that mutates an argument in place returns the
final value of that argument.  The AC-3 work queue is a Python set with an
unspecified pop order; the embedding fixes one determinization (a duplicate
free list popped from the head, additions appended at the tail).  The while
loop of AC-3 and the recursion of backtrack are embedded with explicit fuel,
with the fuel chosen large enough that it is never exhausted on the runs the
theorems below talk about.
-/

namespace CSPSolver

/-- An assignment state: ordered dictionary from variables to domains
(`self.domains` / the `assignment` dictionaries of the Python code). -/
abbrev Assignment (V α : Type) := List (V × List α)

/-- `self.constraints`: ordered dictionary from a variable i to an ordered
dictionary from a variable j to the list of legal value pairs for (i, j). -/
abbrev ConstraintMap (V α : Type) := List (V × List (V × List (α × α)))

/-- Dictionary lookup: the value at the first occurrence of the key. -/
def lookupD {V β : Type} [DecidableEq V] : List (V × β) → V → Option β
  | [], _ => none
  | (k, v) :: rest, key => if k = key then some v else lookupD rest key

/-- Dictionary lookup with a default (used where the Python code's KeyError
is unreachable under the documented preconditions). -/
def getD {V β : Type} [DecidableEq V] (l : List (V × β)) (key : V) (dflt : β) : β :=
  (lookupD l key).getD dflt

/-- Dictionary assignment `d[key] = val`: replaces the value at the first
occurrence of the key in place, or appends a fresh key at the end. -/
def updD {V β : Type} [DecidableEq V] : List (V × β) → V → β → List (V × β)
  | [], key, val => [(key, val)]
  | (k, v) :: rest, key, val =>
    if k = key then (key, val) :: rest else (k, v) :: updD rest key val

/-- The state of a `CSP` object (class CSP of src/Assignment.py); the two
diagnostic counters are omitted, no claim mentions them. -/
structure CSP (V α : Type) where
  vars : List V
  domains : Assignment V α
  constraints : ConstraintMap V α

/-- `CSP.__init__`. -/
def emptyCSP {V α : Type} : CSP V α := ⟨[], [], []⟩

/-- `CSP.add_variable`. -/
def add_variable {V α : Type} [DecidableEq V] (csp : CSP V α) (name : V)
    (domain : List α) : CSP V α :=
  { vars := csp.vars ++ [name]
    domains := updD csp.domains name domain
    constraints := updD csp.constraints name [] }

/-- `CSP.get_all_possible_pairs`: itertools.product, lexicographic order. -/
def get_all_possible_pairs {α β : Type} (a : List α) (b : List β) : List (α × β) :=
  a.flatMap (fun x => b.map (fun y => (x, y)))

/-- `CSP.get_all_arcs`. -/
def get_all_arcs {V α : Type} (csp : CSP V α) : List (V × V) :=
  csp.constraints.flatMap (fun p => p.2.map (fun q => (p.1, q.1)))

/-- `CSP.get_all_neighboring_arcs`: the code iterates over the keys of
`self.constraints[var]` (the arcs with SOURCE var) and pairs each with var. -/
def get_all_neighboring_arcs {V α : Type} [DecidableEq V] (csp : CSP V α)
    (var : V) : List (V × V) :=
  (getD csp.constraints var []).map (fun q => (q.1, var))

/-- `CSP.add_constraint_one_way`.  Preconditions of the Python code: i and j
have been added (otherwise KeyError); under them `getD _ _ []` never takes
its default. -/
def add_constraint_one_way {V α : Type} [DecidableEq V] (csp : CSP V α)
    (i j : V) (filter_function : α → α → Bool) : CSP V α :=
  let inner := getD csp.constraints i []
  let cur := match lookupD inner j with
    | none => get_all_possible_pairs (getD csp.domains i []) (getD csp.domains j [])
    | some rel => rel
  let newInner := updD inner j (cur.filter (fun p => filter_function p.1 p.2))
  { csp with constraints := updD csp.constraints i newInner }

/-- `CSP.add_all_different_constraint`. -/
def add_all_different_constraint {V α : Type} [DecidableEq V] [DecidableEq α]
    (csp : CSP V α) (vars : List V) : CSP V α :=
  (get_all_possible_pairs vars vars).foldl
    (fun c p =>
      if p.1 = p.2 then c
      else add_constraint_one_way c p.1 p.2 (fun x y => decide (x ≠ y)))
    csp

/-- `list.remove(x)`: deletes the first occurrence of x. -/
def removeFirst {α : Type} [DecidableEq α] : List α → α → List α
  | [], _ => []
  | x :: xs, y => if x = y then xs else x :: removeFirst xs y

/-- The `for x in assignment[i]` loop of `CSP.revise`, with Python's live
list iterator made explicit: the iterator keeps an index into the mutating
list, reads the element at the index, advances, and the body may delete the
first occurrence of the element just read.  `check` receives the current
list because for an arc (i, i) the Python code reads the very list being
mutated when it evaluates `assignment[j]`.  One unit of fuel is spent per
iteration; the iterator makes at most `length` iterations, so the initial
fuel `lst.length` is never exhausted. -/
def reviseGo {α : Type} [DecidableEq α] (check : List α → α → Bool) :
    Nat → Nat → List α → Bool → List α × Bool
  | 0, _, lst, b => (lst, b)
  | fuel + 1, idx, lst, b =>
    if h : idx < lst.length then
      let x := lst.get ⟨idx, h⟩
      if check lst x then reviseGo check fuel (idx + 1) lst b
      else reviseGo check fuel (idx + 1) (removeFirst lst x) true
    else (lst, b)

/-- `CSP.revise`: returns the assignment after the in-place mutation of
`assignment[i]`, together with the `revised` flag. -/
def revise {V α : Type} [DecidableEq V] [DecidableEq α] (csp : CSP V α)
    (assignment : Assignment V α) (i j : V) : Assignment V α × Bool :=
  let rel := getD (getD csp.constraints i []) j []
  let di := getD assignment i []
  let check : List α → α → Bool := fun cur x =>
    (if i = j then cur else getD assignment j []).any (fun y => decide ((x, y) ∈ rel))
  let rr := reviseGo check di.length 0 di false
  (updD assignment i rr.1, rr.2)

/-- `set.add` on the embedded work queue: no effect when present. -/
def insertArc {V : Type} [DecidableEq V] (q : List (V × V)) (arc : V × V) :
    List (V × V) :=
  if arc ∈ q then q else q ++ [arc]

/-- `set(queue)`: duplicates collapsed (order is the source's unspecified
set order; the embedding keeps first occurrences). -/
def toQueue {V : Type} [DecidableEq V] (arcs : List (V × V)) : List (V × V) :=
  arcs.foldl insertArc []

/-- Total domain size, used to compute a sufficient fuel for AC-3. -/
def sumLen {V α : Type} (a : Assignment V α) : Nat :=
  (a.map (fun p => p.2.length)).sum

/-- The while loop of `CSP.inference` (AC-3).  Returns the assignment after
all in-place mutations together with the boolean result. -/
def inferenceGo {V α : Type} [DecidableEq V] [DecidableEq α] (csp : CSP V α) :
    Nat → Assignment V α → List (V × V) → Assignment V α × Bool
  | 0, a, _ => (a, true)
  | fuel + 1, a, q =>
    match q with
    | [] => (a, true)
    | (xi, xj) :: rest =>
      let r := revise csp a xi xj
      if r.2 then
        if (getD r.1 xi []).length = 0 then (r.1, false)
        else inferenceGo csp fuel r.1 ((get_all_neighboring_arcs csp xi).foldl insertArc rest)
      else inferenceGo csp fuel r.1 rest

/-- `CSP.inference`.  Each loop iteration pops one arc; iterations that
revise a domain happen at most `sumLen a` times, and each re-adds at most
`(get_all_arcs csp).length` arcs, so the fuel below strictly bounds the
number of iterations and is never exhausted. -/
def inference {V α : Type} [DecidableEq V] [DecidableEq α] (csp : CSP V α)
    (a : Assignment V α) (queue : List (V × V)) : Assignment V α × Bool :=
  inferenceGo csp
    ((sumLen a + queue.length + 1) * ((get_all_arcs csp).length + 1) + 1)
    a (toQueue queue)

/-- `CSP.assignment_is_done`. -/
def assignment_is_done {V α : Type} (a : Assignment V α) : Bool :=
  a.all (fun p => p.2.length ≤ 1)

/-- `CSP.select_unassigned_variable`: Python's `min` with a key returns the
first element attaining the minimal key; `none` corresponds to the
ValueError `min` raises on an empty iterable (unreachable: the function is
only called when some domain has length > 1). -/
def select_unassigned_variable {V α : Type} (a : Assignment V α) : Option V :=
  match a.filter (fun p => 1 < p.2.length) with
  | [] => none
  | x :: xs =>
    some (xs.foldl (fun best p => if p.2.length < best.2.length then p else best) x).1

/-- `CSP.order_domain_values`. -/
def order_domain_values {V α : Type} [DecidableEq V] (var : V)
    (a : Assignment V α) : List α :=
  getD a var []

/-- The for loop of `CSP.backtrack`, abstracted over the recursive call
`bt`.  Each iteration deep-copies the parent assignment `a`, overwrites the
selected variable's domain in the copy with the singleton, runs AC-3 on the
copy seeded with the neighboring arcs, and recurses only when AC-3 reported
no contradiction.  The parent assignment `a` is never mutated. -/
def tryValues {V α : Type} [DecidableEq V] [DecidableEq α]
    (bt : Assignment V α → Option (Assignment V α)) (csp : CSP V α)
    (a : Assignment V α) (u : V) : List α → Option (Assignment V α)
  | [] => none
  | v :: vs =>
    let p := inference csp (updD a u [v]) (get_all_neighboring_arcs csp u)
    if p.2 then
      match bt p.1 with
      | some result => some result
      | none => tryValues bt csp a u vs
    else tryValues bt csp a u vs

/-- `CSP.backtrack` with explicit fuel bounding the recursion depth.
`none` is the Python return value False. -/
def backtrackFuel {V α : Type} [DecidableEq V] [DecidableEq α] (csp : CSP V α) :
    Nat → Assignment V α → Option (Assignment V α)
  | 0, _ => none
  | fuel + 1, a =>
    if assignment_is_done a then some a
    else
      match select_unassigned_variable a with
      | none => none
      | some u => tryValues (backtrackFuel csp fuel) csp a u (order_domain_values u a)

/-- Number of undecided variables (domain length > 1); one recursion level
of backtrack decides at least one variable, so this bounds the depth. -/
def undecidedCount {V α : Type} (a : Assignment V α) : Nat :=
  (a.filter (fun p => 1 < p.2.length)).length

/-- `CSP.backtrack`, with the fuel shown sufficient below. -/
def backtrack {V α : Type} [DecidableEq V] [DecidableEq α] (csp : CSP V α)
    (a : Assignment V α) : Option (Assignment V α) :=
  backtrackFuel csp (undecidedCount a + 1) a

/-- `CSP.backtracking_search`: deep-copies the declared domains, runs AC-3
over the full arc set DISCARDING its boolean result (the source does not
inspect it), and calls backtrack on the mutated assignment. -/
def backtracking_search {V α : Type} [DecidableEq V] [DecidableEq α]
    (csp : CSP V α) : Option (Assignment V α) :=
  let p := inference csp csp.domains (get_all_arcs csp)
  backtrack csp p.1

/-! ### Concrete instances used by the witnesses and counterexamples -/

/-- The inequality predicate used by map coloring and all-different. -/
def neq (x y : Nat) : Bool := decide (x ≠ y)

/-- Two variables forced to the same value 5 but constrained to differ in
both directions: a contradictory pair (the two-identical-digits Sudoku row
in miniature). -/
def csp1 : CSP Nat Nat :=
  add_constraint_one_way
    (add_constraint_one_way
      (add_variable (add_variable emptyCSP 0 [5]) 1 [5]) 0 1 neq) 1 0 neq

/-- Two independent contradictory pairs: (0, 1) and (2, 3) each share the
single value 7 yet are constrained to differ in both directions. -/
def csp2 : CSP Nat Nat :=
  add_constraint_one_way
    (add_constraint_one_way
      (add_constraint_one_way
        (add_constraint_one_way
          (add_variable (add_variable (add_variable (add_variable
            emptyCSP 0 [7]) 1 [7]) 2 [7]) 3 [7])
          0 1 neq) 1 0 neq) 2 3 neq) 3 2 neq

/-- Variable 0 has domain [1, 2], variable 1 has domain [5], and the
relation for the arc (0, 1) is empty, so no value of variable 0 has
support. -/
def csp3 : CSP Nat Nat :=
  add_constraint_one_way
    (add_variable (add_variable emptyCSP 0 [1, 2]) 1 [5]) 0 1 (fun _ _ => false)

/-- A store with a single one-directional constraint, registered for the
ordered pair (0, 1) only. -/
def csp4 : CSP Nat Nat :=
  add_constraint_one_way
    (add_variable (add_variable emptyCSP 0 [1]) 1 [2]) 0 1 (fun _ _ => true)

/-- A satisfiable instance that needs one search step: a single variable
with the two-value domain [1, 2] and no constraints. -/
def csp5 : CSP Nat Nat := add_variable emptyCSP 0 [1, 2]

/-- Two variables 0 and 1 with domains [1, 2] and no constraint registered
yet: the starting point for composing constraints on the arc (0, 1). -/
def cspBase : CSP Nat Nat :=
  add_variable (add_variable emptyCSP 0 [1, 2]) 1 [1, 2]

/-- Domain-wise comparison of two assignment states: every domain of `b`
is a sub-sequence of the corresponding domain of `a`. -/
def DomLe {V α : Type} [DecidableEq V] (b a : Assignment V α) : Prop :=
  ∀ w, List.Sublist (getD b w []) (getD a w [])

/-- One iteration of the candidate-value loop of backtrack, as a function
of the parent assignment alone: deep copy with the selected variable fixed
to the candidate, propagate, recurse on success.  The loop is the
iteration of this step over the candidate list, so no iteration sees any
trace of an earlier (in particular a failed) iteration. -/
def branchStep {V α : Type} [DecidableEq V] [DecidableEq α]
    (bt : Assignment V α → Option (Assignment V α)) (csp : CSP V α)
    (a : Assignment V α) (u : V) (v : α) : Option (Assignment V α) :=
  let p := inference csp (updD a u [v]) (get_all_neighboring_arcs csp u)
  if p.2 then bt p.1 else none

/-! ### Dictionary lemmas -/

theorem lookupD_updD_self {V β : Type} [DecidableEq V] (l : List (V × β))
    (k : V) (v : β) : lookupD (updD l k v) k = some v := by
  induction l with
  | nil => simp [updD, lookupD]
  | cons p rest ih =>
    by_cases h : p.1 = k
    · simp [updD, h, lookupD]
    · simp [updD, h, lookupD, ih]

theorem lookupD_updD_ne {V β : Type} [DecidableEq V] (l : List (V × β))
    (k k' : V) (v : β) (h : k' ≠ k) :
    lookupD (updD l k v) k' = lookupD l k' := by
  induction l with
  | nil => simp [updD, lookupD, Ne.symm h]
  | cons p rest ih =>
    obtain ⟨pk, pv⟩ := p
    by_cases hp : pk = k
    · subst hp
      simp [updD, lookupD, Ne.symm h]
    · simp [updD, hp, lookupD, ih]

theorem getD_updD_self {V β : Type} [DecidableEq V] (l : List (V × β))
    (k : V) (v d : β) : getD (updD l k v) k d = v := by
  simp [getD, lookupD_updD_self]

theorem getD_updD_ne {V β : Type} [DecidableEq V] (l : List (V × β))
    (k k' : V) (v d : β) (h : k' ≠ k) :
    getD (updD l k v) k' d = getD l k' d := by
  simp [getD, lookupD_updD_ne _ _ _ _ h]

theorem mem_of_lookupD_eq_some {V β : Type} [DecidableEq V]
    {l : List (V × β)} {k : V} {v : β} (h : lookupD l k = some v) :
    (k, v) ∈ l := by
  induction l with
  | nil => simp [lookupD] at h
  | cons p rest ih =>
    obtain ⟨pk, pv⟩ := p
    by_cases hp : pk = k
    · subst hp
      simp [lookupD] at h
      subst h
      exact List.mem_cons_self _ _
    · simp [lookupD, hp] at h
      exact List.mem_cons_of_mem _ (ih h)

theorem lookupD_eq_some_of_mem_nodup {V β : Type} [DecidableEq V]
    {l : List (V × β)} {k : V} {v : β} (hmem : (k, v) ∈ l)
    (hnd : (l.map Prod.fst).Nodup) : lookupD l k = some v := by
  induction l with
  | nil => simp at hmem
  | cons p rest ih =>
    simp only [List.map_cons, List.nodup_cons] at hnd
    rcases List.mem_cons.1 hmem with h | h
    · rw [← h]
      simp [lookupD]
    · have hne : p.1 ≠ k := by
        intro he
        exact hnd.1 (he ▸ (List.mem_map.2 ⟨(k, v), h, rfl⟩))
      simp [lookupD, hne, ih h hnd.2]

theorem lookupD_eq_none_iff {V β : Type} [DecidableEq V]
    (l : List (V × β)) (k : V) :
    lookupD l k = none ↔ k ∉ l.map Prod.fst := by
  induction l with
  | nil => simp [lookupD]
  | cons p rest ih =>
    obtain ⟨pk, pv⟩ := p
    by_cases hp : pk = k
    · subst hp
      simp [lookupD]
    · simp [lookupD, hp, ih, Ne.symm hp]

/-! ### Claim theorems on concrete instances -/

/-- Claim C1 (code_bug evaluation): on the internally contradictory
instance csp1 the preprocessing AC-3 pass over the full arc set fails (it
empties the domain of variable 0 and returns false), yet
backtracking_search discards that boolean, calls backtrack on the mutated
assignment, and returns the garbage assignment with an empty domain instead
of the no-solution value none. -/
theorem backtracking_search_ignores_failed_preprocessing :
    (inference csp1 csp1.domains (get_all_arcs csp1)).2 = false
    ∧ backtracking_search csp1 = some [(0, []), (1, [5])] := by
  decide

/-- Claim C2 (code_bug evaluation): on csp2 backtracking_search returns an
assignment in which the registered arc (2, 3) has both endpoint domains of
length exactly one, yet the pair of assigned values (7, 7) is not in the
stored legal-pair set for (2, 3) — the returned value violates soundness. -/
theorem backtracking_search_soundness_violation :
    ∃ r, backtracking_search csp2 = some r
      ∧ (2, 3) ∈ get_all_arcs csp2
      ∧ lookupD r 2 = some [7]
      ∧ lookupD r 3 = some [7]
      ∧ (7, 7) ∉ getD (getD csp2.constraints 2 []) 3 [] := by
  refine ⟨[(0, []), (1, [7]), (2, [7]), (3, [7])], by decide, by decide, rfl, rfl, by decide⟩

/-- Claim C3 (code_bug evaluation): on csp3 both values 1 and 2 of variable
0 lack support in the empty relation for the arc (0, 1), but revise deletes
only the value 1: deleting an element of the list being iterated makes the
live iterator skip the following element, so the unsupported value 2
survives the call. -/
theorem revise_leaves_unsupported_value :
    revise csp3 csp3.domains 0 1 = ([(0, [2]), (1, [5])], true)
    ∧ 2 ∈ getD (revise csp3 csp3.domains 0 1).1 0 []
    ∧ ¬ ∃ y ∈ getD (revise csp3 csp3.domains 0 1).1 1 [],
        ((2 : Nat), y) ∈ getD (getD csp3.constraints 0 []) 1 [] := by
  decide

/-- Claim C4 (counterexample): in csp4 the only registered arc is (0, 1),
so by the claim get_all_neighboring_arcs 1 should contain (0, 1) and
get_all_neighboring_arcs 0 should be empty; the code returns the opposite,
because it builds the pairs from the keys of constraints[var], i.e. from
the arcs whose SOURCE is var. -/
theorem get_all_neighboring_arcs_one_way_counterexample :
    (0, 1) ∈ get_all_arcs csp4
    ∧ get_all_neighboring_arcs csp4 1 = []
    ∧ get_all_neighboring_arcs csp4 0 = [(1, 0)]
    ∧ (1, 0) ∉ get_all_arcs csp4 := by
  decide

/-- Claim C4 (amended): get_all_neighboring_arcs v returns exactly the
reversals (i, v) of the registered arcs (v, i) whose source is v; when
every constraint is registered in both directions this set coincides with
the registered arcs whose target is v, but not under one-way
registration. -/
theorem get_all_neighboring_arcs_reversed (V α : Type) [DecidableEq V]
    (csp : CSP V α) (v : V) (hnd : (csp.constraints.map Prod.fst).Nodup) :
    (∀ p ∈ get_all_neighboring_arcs csp v, p.2 = v)
    ∧ ∀ i, ((i, v) ∈ get_all_neighboring_arcs csp v ↔ (v, i) ∈ get_all_arcs csp) := by
  constructor
  · intro p hp
    rcases List.mem_map.1 hp with ⟨q, _, hq⟩
    rw [← hq]
  · intro i
    constructor
    · intro hmem
      rcases List.mem_map.1 hmem with ⟨q, hq, he⟩
      have hq1 : q.1 = i := congrArg Prod.fst he
      rcases hv : lookupD csp.constraints v with _ | inner
      · simp only [get_all_neighboring_arcs, getD, hv, Option.getD_none] at hq
        simp at hq
      · simp only [get_all_neighboring_arcs, getD, hv, Option.getD_some] at hq
        refine List.mem_flatMap.2 ⟨(v, inner), mem_of_lookupD_eq_some hv, ?_⟩
        exact List.mem_map.2 ⟨q, hq, by rw [hq1]⟩
    · intro hmem
      rcases List.mem_flatMap.1 hmem with ⟨p, hp, hpm⟩
      rcases List.mem_map.1 hpm with ⟨q, hq, he⟩
      have hp1 : p.1 = v := congrArg Prod.fst he
      have hq1 : q.1 = i := congrArg Prod.snd he
      have hlk : lookupD csp.constraints v = some p.2 :=
        lookupD_eq_some_of_mem_nodup (by rw [← hp1]; exact hp) hnd
      simp only [get_all_neighboring_arcs, getD, hlk, Option.getD_some]
      exact List.mem_map.2 ⟨q, hq, by rw [hq1]⟩

/-- Claim C4 (witness): the amended characterization evaluated on csp4 at
the variable 0 and the source 1. -/
theorem get_all_neighboring_arcs_reversed_witness :
    ((1, 0) ∈ get_all_neighboring_arcs csp4 0 ↔ (0, 1) ∈ get_all_arcs csp4) :=
  (get_all_neighboring_arcs_reversed Nat Nat csp4 0 (by decide)).2 1

/-- Claim C10: assignment_is_done is true exactly when no domain has
length greater than one — an empty domain also counts as done — and
consequently backtracking_search can return an assignment mapping a
variable to the empty list (here on csp1) instead of the no-solution
value. -/
theorem assignment_is_done_iff_and_empty_domain :
    (∀ (V α : Type) (a : Assignment V α),
        (assignment_is_done a = true ↔ ∀ p ∈ a, p.2.length ≤ 1))
    ∧ ∃ r, backtracking_search csp1 = some r ∧ lookupD r 0 = some ([] : List Nat) := by
  constructor
  · intro V α a
    simp [assignment_is_done, List.all_eq_true, decide_eq_true_iff]
  · exact ⟨[(0, []), (1, [5])], by decide, rfl⟩

/-- Claim C10 (witness): the characterization applied to a concrete
assignment whose only domain is empty. -/
theorem assignment_is_done_iff_and_empty_domain_witness :
    assignment_is_done [((0 : Nat), ([] : List Nat))] = true :=
  (assignment_is_done_iff_and_empty_domain.1 Nat Nat [(0, [])]).2 (by decide)

/-! ### Domain monotonicity -/

theorem removeFirst_sublist {α : Type} [DecidableEq α] (l : List α) (x : α) :
    List.Sublist (removeFirst l x) l := by
  induction l with
  | nil => exact List.Sublist.refl _
  | cons y ys ih =>
    by_cases h : y = x
    · simp only [removeFirst, h, if_pos]
      exact List.sublist_cons_self _ _
    · simp only [removeFirst, if_neg h]
      exact List.Sublist.cons₂ _ ih

theorem reviseGo_fst_sublist {α : Type} [DecidableEq α]
    (check : List α → α → Bool) :
    ∀ (fuel idx : Nat) (lst : List α) (b : Bool),
      List.Sublist (reviseGo check fuel idx lst b).1 lst := by
  intro fuel
  induction fuel with
  | zero => intro idx lst b; exact List.Sublist.refl _
  | succ fuel ih =>
    intro idx lst b
    simp only [reviseGo]
    by_cases h : idx < lst.length
    · simp only [dif_pos h]
      by_cases hc : check lst (lst.get ⟨idx, h⟩)
      · simp only [hc, if_pos]
        exact ih _ _ _
      · simp only [hc, Bool.false_eq_true, if_neg, not_false_iff]
        exact (ih _ _ _).trans (removeFirst_sublist _ _)
    · simp only [dif_neg h]
      exact List.Sublist.refl _

theorem DomLe.rfl {V α : Type} [DecidableEq V] (a : Assignment V α) :
    DomLe a a :=
  fun _ => List.Sublist.refl _

theorem DomLe.trans {V α : Type} [DecidableEq V] {c b a : Assignment V α}
    (h1 : DomLe c b) (h2 : DomLe b a) : DomLe c a :=
  fun w => (h1 w).trans (h2 w)

theorem updD_domLe_of_sublist {V α : Type} [DecidableEq V]
    {a : Assignment V α} {i : V} {d : List α} (h : List.Sublist d (getD a i [])) :
    DomLe (updD a i d) a := by
  intro w
  by_cases hw : w = i
  · subst hw
    rw [getD_updD_self]
    exact h
  · rw [getD_updD_ne _ _ _ _ _ hw]

theorem revise_domLe {V α : Type} [DecidableEq V] [DecidableEq α]
    (csp : CSP V α) (a : Assignment V α) (i j : V) :
    DomLe (revise csp a i j).1 a :=
  updD_domLe_of_sublist (reviseGo_fst_sublist _ _ _ _ _)

theorem inferenceGo_domLe {V α : Type} [DecidableEq V] [DecidableEq α]
    (csp : CSP V α) :
    ∀ (fuel : Nat) (a : Assignment V α) (q : List (V × V)),
      DomLe (inferenceGo csp fuel a q).1 a := by
  intro fuel
  induction fuel with
  | zero => intro a q; exact DomLe.rfl a
  | succ fuel ih =>
    intro a q
    match q with
    | [] => exact DomLe.rfl a
    | (xi, xj) :: rest =>
      simp only [inferenceGo]
      by_cases hr : (revise csp a xi xj).2
      · simp only [hr, if_pos]
        by_cases hl : (getD (revise csp a xi xj).1 xi []).length = 0
        · simp only [hl, if_pos]
          exact revise_domLe csp a xi xj
        · simp only [hl, if_neg, not_false_iff]
          exact DomLe.trans (ih _ _) (revise_domLe csp a xi xj)
      · simp only [Bool.not_eq_true] at hr
        simp only [hr, Bool.false_eq_true, if_neg, not_false_iff]
        exact DomLe.trans (ih _ _) (revise_domLe csp a xi xj)

theorem inference_domLe {V α : Type} [DecidableEq V] [DecidableEq α]
    (csp : CSP V α) (a : Assignment V α) (q : List (V × V)) :
    DomLe (inference csp a q).1 a :=
  inferenceGo_domLe csp _ a _

theorem tryValues_some_domLe {V α : Type} [DecidableEq V] [DecidableEq α]
    (bt : Assignment V α → Option (Assignment V α))
    (hbt : ∀ b r, bt b = some r → DomLe r b)
    (csp : CSP V α) (a : Assignment V α) (u : V) :
    ∀ (vs : List α) (r : Assignment V α), (∀ v ∈ vs, v ∈ getD a u []) →
      tryValues bt csp a u vs = some r → DomLe r a := by
  intro vs
  induction vs with
  | nil => intro r _ h; simp [tryValues] at h
  | cons v vs ih =>
    intro r hv h
    have hsub : DomLe (updD a u [v]) a :=
      updD_domLe_of_sublist
        (List.singleton_sublist.2 (hv v (List.mem_cons_self _ _)))
    simp only [tryValues] at h
    by_cases hp : (inference csp (updD a u [v]) (get_all_neighboring_arcs csp u)).2
    · simp only [hp, if_pos] at h
      cases hb : bt (inference csp (updD a u [v]) (get_all_neighboring_arcs csp u)).1 with
      | none =>
        rw [hb] at h
        exact ih r (fun w hw => hv w (List.mem_cons_of_mem _ hw)) h
      | some r0 =>
        rw [hb] at h
        cases h
        exact DomLe.trans (DomLe.trans (hbt _ _ hb) (inference_domLe csp _ _)) hsub
    · simp only [Bool.not_eq_true] at hp
      simp only [hp, Bool.false_eq_true, if_neg, not_false_iff] at h
      exact ih r (fun w hw => hv w (List.mem_cons_of_mem _ hw)) h

theorem backtrackFuel_some_domLe {V α : Type} [DecidableEq V] [DecidableEq α]
    (csp : CSP V α) :
    ∀ (fuel : Nat) (a r : Assignment V α),
      backtrackFuel csp fuel a = some r → DomLe r a := by
  intro fuel
  induction fuel with
  | zero => intro a r h; simp [backtrackFuel] at h
  | succ fuel ih =>
    intro a r h
    simp only [backtrackFuel] at h
    by_cases hd : assignment_is_done a
    · simp only [hd, if_pos, Option.some_inj] at h
      rw [← h]
      exact DomLe.rfl a
    · simp only [Bool.not_eq_true] at hd
      simp only [hd, Bool.false_eq_true, if_neg, not_false_iff] at h
      cases hu : select_unassigned_variable a with
      | none => rw [hu] at h; simp at h
      | some u =>
        rw [hu] at h
        exact tryValues_some_domLe _ ih csp a u _ r (fun w hw => hw) h

/-- Claim C5: domain monotonicity.  Every operation of the solver leaves
every domain a sub-sequence of its previous value: revise only removes
values, AC-3 only removes values, any assignment returned by backtrack has
domain-wise sub-sequences of its argument, and any assignment returned by
backtracking_search has domain-wise sub-sequences of the originally
declared domains. -/
theorem domain_monotonicity (V α : Type) [DecidableEq V] [DecidableEq α]
    (csp : CSP V α) :
    (∀ (a : Assignment V α) (i j w : V), List.Sublist (getD (revise csp a i j).1 w []) (getD a w []))
    ∧ (∀ (a : Assignment V α) (q : List (V × V)) (w : V),
        List.Sublist (getD (inference csp a q).1 w []) (getD a w []))
    ∧ (∀ (fuel : Nat) (a r : Assignment V α) (w : V),
        backtrackFuel csp fuel a = some r → List.Sublist (getD r w []) (getD a w []))
    ∧ (∀ (r : Assignment V α) (w : V),
        backtracking_search csp = some r → List.Sublist (getD r w []) (getD csp.domains w [])) := by
  refine ⟨fun a i j w => revise_domLe csp a i j w,
          fun a q w => inference_domLe csp a q w,
          fun fuel a r w h => backtrackFuel_some_domLe csp fuel a r h w,
          fun r w h => ?_⟩
  simp only [backtracking_search, backtrack] at h
  exact DomLe.trans (backtrackFuel_some_domLe csp _ _ r h)
    (inference_domLe csp csp.domains (get_all_arcs csp)) w

/-- Claim C5 (witness): monotonicity evaluated on the result of the search
on csp5, whose declared domain [1, 2] shrinks to [1]. -/
theorem domain_monotonicity_witness :
    List.Sublist (getD [((0 : Nat), [1])] 0 []) (getD csp5.domains 0 []) :=
  (domain_monotonicity Nat Nat csp5).2.2.2 [(0, [1])] 0 (by decide)

/-- Claim C6: branch isolation.  The candidate loop of backtrack equals
the first-success iteration of branchStep, a function of the parent
assignment as it was before the loop; hence a failed recursive call leaves
the parent assignment exactly as it was, and every sibling iteration
starts from the identical parent state.  Moreover the deep copy handed to
a branch differs from the parent only at the selected variable. -/
theorem backtrack_branch_isolation (V α : Type) [DecidableEq V] [DecidableEq α]
    (bt : Assignment V α → Option (Assignment V α)) (csp : CSP V α)
    (a : Assignment V α) (u : V) :
    (∀ vs, tryValues bt csp a u vs = vs.findSome? (branchStep bt csp a u))
    ∧ (∀ (v : α) (w : V), w ≠ u → lookupD (updD a u [v]) w = lookupD a w) := by
  constructor
  · intro vs
    induction vs with
    | nil => rfl
    | cons v vs ih =>
      simp only [tryValues, List.findSome?, branchStep]
      by_cases hp : (inference csp (updD a u [v]) (get_all_neighboring_arcs csp u)).2
      · simp only [hp, if_pos]
        cases hb : bt (inference csp (updD a u [v]) (get_all_neighboring_arcs csp u)).1 with
        | none => simp [hb, ih]
        | some r0 => simp [hb]
      · simp only [Bool.not_eq_true] at hp
        simp [hp, ih]
  · intro v w hw
    exact lookupD_updD_ne a u w [v] hw

/-- Claim C6 (witness): the branch taken for candidate 1 of variable 0 in
csp5 leaves the other keys of the parent assignment untouched. -/
theorem backtrack_branch_isolation_witness :
    lookupD (updD csp5.domains 0 [1]) 1 = lookupD csp5.domains 1 :=
  (backtrack_branch_isolation Nat Nat some csp5 csp5.domains 0).2 1 1 (by decide)

/-! ### Constraint composition (claim C7) -/

theorem updD_absent {V β : Type} [DecidableEq V] {l : List (V × β)} {k : V}
    (h : lookupD l k = none) (v : β) : updD l k v = l ++ [(k, v)] := by
  induction l with
  | nil => rfl
  | cons p rest ih =>
    obtain ⟨pk, pv⟩ := p
    by_cases hp : pk = k
    · simp [lookupD, hp] at h
    · rw [lookupD, if_neg hp] at h
      simp [updD, hp, ih h]

theorem foldl_add_constraint_existing {V α : Type} [DecidableEq V] (i j : V) :
    ∀ (ps : List (α → α → Bool)) (csp : CSP V α)
      (inner : List (V × List (α × α))) (r : List (α × α)),
      lookupD csp.constraints i = some inner →
      lookupD inner j = some r →
      (∃ inner2,
        lookupD (ps.foldl (fun c f => add_constraint_one_way c i j f) csp).constraints i
            = some inner2
        ∧ lookupD inner2 j = some (r.filter (fun q => ps.all (fun f => f q.1 q.2))))
      ∧ (ps.foldl (fun c f => add_constraint_one_way c i j f) csp).domains = csp.domains
      ∧ ∀ k, k ≠ i →
          lookupD (ps.foldl (fun c f => add_constraint_one_way c i j f) csp).constraints k
            = lookupD csp.constraints k := by
  intro ps
  induction ps with
  | nil =>
    intro csp inner r hi hj
    refine ⟨⟨inner, hi, ?_⟩, rfl, fun k _ => rfl⟩
    simpa [List.filter_true] using hj
  | cons p ps ih =>
    intro csp inner r hi hj
    have hgc : getD csp.constraints i [] = inner := by simp [getD, hi]
    have hc1 : (add_constraint_one_way csp i j p).constraints
        = updD csp.constraints i (updD inner j (r.filter (fun q => p q.1 q.2))) := by
      simp only [add_constraint_one_way, hgc, hj]
    have h2 : lookupD (add_constraint_one_way csp i j p).constraints i
        = some (updD inner j (r.filter (fun q => p q.1 q.2))) := by
      rw [hc1]
      exact lookupD_updD_self _ _ _
    simp only [List.foldl_cons]
    rcases ih (add_constraint_one_way csp i j p)
        (updD inner j (r.filter (fun q => p q.1 q.2)))
        (r.filter (fun q => p q.1 q.2)) h2 (lookupD_updD_self _ _ _) with
      ⟨⟨inner2, hl2, hl2j⟩, hdom, hother⟩
    refine ⟨⟨inner2, hl2, ?_⟩, hdom.trans rfl, fun k hk => ?_⟩
    · rw [hl2j]
      congr 1
      rw [List.filter_filter]
      apply List.filter_congr
      intro q _
      rw [List.all_cons, Bool.and_comm]
    · rw [hother k hk, hc1, lookupD_updD_ne _ _ _ _ hk]

/-- Claim C7: successive calls of add_constraint_one_way for the same
ordered pair (i, j) compose by conjunction: starting from a store where
(i, j) is unregistered, after the calls with predicates p, ps the stored
relation for (i, j) is exactly the cross-product of the two declared
domains filtered by ALL the predicates (never reset), the declared domains
are untouched, and the reverse entry constraints[j] — in particular the
reverse relation (j, i) — is never registered or modified when i and j are
distinct. -/
theorem add_constraint_one_way_conjunction (V α : Type) [DecidableEq V]
    [DecidableEq α] (csp : CSP V α) (i j : V)
    (inner : List (V × List (α × α))) (p : α → α → Bool)
    (ps : List (α → α → Bool))
    (hi : lookupD csp.constraints i = some inner)
    (hj : lookupD inner j = none) :
    (∃ inner2,
      lookupD (((p :: ps).foldl (fun c f => add_constraint_one_way c i j f) csp).constraints) i
          = some inner2
      ∧ lookupD inner2 j
          = some ((get_all_possible_pairs (getD csp.domains i []) (getD csp.domains j [])).filter
              (fun q => (p :: ps).all (fun f => f q.1 q.2))))
    ∧ ((p :: ps).foldl (fun c f => add_constraint_one_way c i j f) csp).domains = csp.domains
    ∧ (i ≠ j →
        lookupD (((p :: ps).foldl (fun c f => add_constraint_one_way c i j f) csp).constraints) j
          = lookupD csp.constraints j) := by
  have hgc : getD csp.constraints i [] = inner := by simp [getD, hi]
  have hc1 : (add_constraint_one_way csp i j p).constraints
      = updD csp.constraints i
          (updD inner j
            ((get_all_possible_pairs (getD csp.domains i []) (getD csp.domains j [])).filter
              (fun q => p q.1 q.2))) := by
    simp only [add_constraint_one_way, hgc, hj]
  have h2 : lookupD (add_constraint_one_way csp i j p).constraints i
      = some (updD inner j
          ((get_all_possible_pairs (getD csp.domains i []) (getD csp.domains j [])).filter
            (fun q => p q.1 q.2))) := by
    rw [hc1]
    exact lookupD_updD_self _ _ _
  rcases foldl_add_constraint_existing i j ps (add_constraint_one_way csp i j p)
      _ _ h2 (lookupD_updD_self _ _ _) with ⟨⟨inner2, hl2, hl2j⟩, hdom, hother⟩
  simp only [List.foldl_cons]
  refine ⟨⟨inner2, hl2, ?_⟩, hdom.trans rfl, fun hij => ?_⟩
  · rw [hl2j]
    congr 1
    rw [List.filter_filter]
    apply List.filter_congr
    intro q _
    rw [List.all_cons, Bool.and_comm]
  · rw [hother j (Ne.symm hij), hc1, lookupD_updD_ne _ _ _ _ (Ne.symm hij)]

/-- Claim C7 (witness): composing two inequality constraints on the arc
(0, 1) of cspBase leaves the reverse entry for variable 1 unchanged. -/
theorem add_constraint_one_way_conjunction_witness :
    lookupD ((([neq, neq] : List (Nat → Nat → Bool)).foldl
        (fun c f => add_constraint_one_way c 0 1 f) cspBase).constraints) 1
      = lookupD cspBase.constraints 1 :=
  (add_constraint_one_way_conjunction Nat Nat cspBase 0 1 [] neq [neq] rfl rfl).2.2
    (by decide)

/-! ### Minimum-remaining-values selection (claim C8) -/

theorem foldl_min_mem_le {V α : Type} :
    ∀ (xs : List (V × List α)) (x : V × List α),
      (xs.foldl (fun best p => if p.2.length < best.2.length then p else best) x) ∈ x :: xs
      ∧ ∀ q ∈ x :: xs,
          (xs.foldl (fun best p => if p.2.length < best.2.length then p else best) x).2.length
            ≤ q.2.length := by
  intro xs
  induction xs with
  | nil =>
    intro x
    refine ⟨List.mem_singleton.2 rfl, fun q hq => ?_⟩
    rw [List.mem_singleton.1 hq]
    exact le_rfl
  | cons y ys ih =>
    intro x
    rw [List.foldl_cons]
    rcases ih (if y.2.length < x.2.length then y else x) with ⟨hmem, hle⟩
    have hsub : (if y.2.length < x.2.length then y else x) ∈ x :: y :: ys := by
      by_cases h : y.2.length < x.2.length
      · simp [h]
      · simp [h]
    have hxle : (if y.2.length < x.2.length then y else x).2.length ≤ x.2.length := by
      by_cases h : y.2.length < x.2.length
      · rw [if_pos h]; exact Nat.le_of_lt h
      · rw [if_neg h]
    have hyle : (if y.2.length < x.2.length then y else x).2.length ≤ y.2.length := by
      by_cases h : y.2.length < x.2.length
      · rw [if_pos h]
      · rw [if_neg h]; exact Nat.le_of_not_lt h
    constructor
    · rcases List.mem_cons.1 hmem with h | h
      · rw [h]; exact hsub
      · exact List.mem_cons_of_mem _ (List.mem_cons_of_mem _ h)
    · intro q hq
      rcases List.mem_cons.1 hq with h | h
      · exact le_trans (hle _ (List.mem_cons_self _ _)) (h ▸ hxle)
      · rcases List.mem_cons.1 h with h2 | h2
        · exact le_trans (hle _ (List.mem_cons_self _ _)) (h2 ▸ hyle)
        · exact hle _ (List.mem_cons_of_mem _ h2)

/-- Claim C8: when some variable is undecided (domain length > 1),
select_unassigned_variable returns an undecided variable whose domain size
is minimal among all undecided variables (minimum-remaining-values). -/
theorem select_unassigned_variable_mrv (V α : Type) [DecidableEq V]
    (a : Assignment V α) (hnd : (a.map Prod.fst).Nodup)
    (h : ∃ p ∈ a, 1 < p.2.length) :
    ∃ u du, select_unassigned_variable a = some u
      ∧ lookupD a u = some du ∧ 1 < du.length
      ∧ ∀ p ∈ a, 1 < p.2.length → du.length ≤ p.2.length := by
  cases hf : a.filter (fun p => 1 < p.2.length) with
  | nil =>
    exfalso
    rcases h with ⟨p, hp, hlen⟩
    have : p ∈ a.filter (fun p => 1 < p.2.length) :=
      List.mem_filter.2 ⟨hp, decide_eq_true hlen⟩
    rw [hf] at this
    simp at this
  | cons x xs =>
    rcases foldl_min_mem_le xs x with ⟨hmem, hle⟩
    have hmf : (xs.foldl (fun best p => if p.2.length < best.2.length then p else best) x)
        ∈ a.filter (fun p => 1 < p.2.length) := by
      rw [hf]
      exact hmem
    have hma := List.mem_filter.1 hmf
    refine ⟨(xs.foldl (fun best p => if p.2.length < best.2.length then p else best) x).1,
      (xs.foldl (fun best p => if p.2.length < best.2.length then p else best) x).2,
      ?_, ?_, ?_, ?_⟩
    · simp only [select_unassigned_variable, hf]
    · exact lookupD_eq_some_of_mem_nodup hma.1 hnd
    · exact of_decide_eq_true hma.2
    · intro p hp hplen
      have : p ∈ a.filter (fun p => 1 < p.2.length) :=
        List.mem_filter.2 ⟨hp, decide_eq_true hplen⟩
      rw [hf] at this
      exact hle p this

/-- Claim C8 (witness): on a concrete assignment with two undecided
variables the selection returns variable 1, whose domain [4, 5] is the
smallest undecided domain. -/
theorem select_unassigned_variable_mrv_witness :
    ∃ u du,
      select_unassigned_variable [((0 : Nat), [(1 : Nat), 2, 3]), (1, [4, 5])] = some u
      ∧ lookupD [((0 : Nat), [(1 : Nat), 2, 3]), (1, [4, 5])] u = some du
      ∧ 1 < du.length
      ∧ ∀ p ∈ [((0 : Nat), [(1 : Nat), 2, 3]), (1, [4, 5])],
          1 < p.2.length → du.length ≤ p.2.length :=
  select_unassigned_variable_mrv Nat Nat [(0, [1, 2, 3]), (1, [4, 5])]
    (by decide) ⟨(1, [4, 5]), by decide, by decide⟩

/-! ### Termination and depth bound of backtrack (claim C9) -/

theorem lookupD_split {V β : Type} [DecidableEq V] :
    ∀ (l : List (V × β)) (k : V) (v : β), lookupD l k = some v →
      ∃ l1 l2, l = l1 ++ (k, v) :: l2 ∧ ∀ w : β, updD l k w = l1 ++ (k, w) :: l2 := by
  intro l
  induction l with
  | nil => intro k v h; simp [lookupD] at h
  | cons p rest ih =>
    intro k v h
    obtain ⟨pk, pv⟩ := p
    by_cases hp : pk = k
    · subst hp
      rw [lookupD, if_pos rfl] at h
      have hv : pv = v := Option.some.inj h
      subst hv
      exact ⟨[], rest, rfl, fun w => by simp [updD]⟩
    · rw [lookupD, if_neg hp] at h
      rcases ih k v h with ⟨l1, l2, he, hu⟩
      refine ⟨(pk, pv) :: l1, l2, by rw [he]; rfl, fun w => ?_⟩
      simp [updD, hp, hu w]

theorem undecidedCount_append {V α : Type} (l1 l2 : Assignment V α) :
    undecidedCount (l1 ++ l2) = undecidedCount l1 + undecidedCount l2 := by
  simp [undecidedCount, List.filter_append]

theorem undecidedCount_cons {V α : Type} (p : V × List α) (l : Assignment V α) :
    undecidedCount (p :: l) = (if 1 < p.2.length then 1 else 0) + undecidedCount l := by
  simp only [undecidedCount, List.filter_cons]
  by_cases h : 1 < p.2.length
  · simp [h, Nat.add_comm]
  · simp [h]

theorem getD_eq_of_lookupD {V β : Type} [DecidableEq V] {l : List (V × β)}
    {k : V} {v : β} (h : lookupD l k = some v) (d : β) : getD l k d = v := by
  simp [getD, h]

theorem undecidedCount_updD_le {V α : Type} [DecidableEq V]
    (a : Assignment V α) (i : V) (d : List α)
    (h : List.Sublist d (getD a i [])) :
    undecidedCount (updD a i d) ≤ undecidedCount a := by
  cases hl : lookupD a i with
  | none =>
    have hg : getD a i [] = [] := by simp [getD, hl]
    have hd : d = [] := List.sublist_nil.1 (hg ▸ h)
    rw [updD_absent hl, hd, undecidedCount_append]
    simp [undecidedCount]
  | some v =>
    have hg : getD a i [] = v := getD_eq_of_lookupD hl []
    rw [hg] at h
    rcases lookupD_split a i v hl with ⟨l1, l2, he, hu⟩
    rw [hu d, he, undecidedCount_append, undecidedCount_append,
        undecidedCount_cons, undecidedCount_cons]
    have hflag : (if 1 < d.length then 1 else 0) ≤ (if 1 < v.length then 1 else 0) := by
      by_cases h1 : 1 < d.length
      · rw [if_pos h1, if_pos (lt_of_lt_of_le h1 h.length_le)]
      · rw [if_neg h1]
        exact Nat.zero_le _
    rw [show ((i, d) : V × List α).2 = d from rfl, show ((i, v) : V × List α).2 = v from rfl]
    omega

theorem revise_undecided_le {V α : Type} [DecidableEq V] [DecidableEq α]
    (csp : CSP V α) (a : Assignment V α) (i j : V) :
    undecidedCount (revise csp a i j).1 ≤ undecidedCount a :=
  undecidedCount_updD_le a i _ (reviseGo_fst_sublist _ _ _ _ _)

theorem inferenceGo_undecided_le {V α : Type} [DecidableEq V] [DecidableEq α]
    (csp : CSP V α) :
    ∀ (fuel : Nat) (a : Assignment V α) (q : List (V × V)),
      undecidedCount (inferenceGo csp fuel a q).1 ≤ undecidedCount a := by
  intro fuel
  induction fuel with
  | zero => intro a q; exact le_rfl
  | succ fuel ih =>
    intro a q
    match q with
    | [] => exact le_rfl
    | (xi, xj) :: rest =>
      simp only [inferenceGo]
      by_cases hr : (revise csp a xi xj).2
      · simp only [hr, if_pos]
        by_cases hl : (getD (revise csp a xi xj).1 xi []).length = 0
        · simp only [hl, if_pos]
          exact revise_undecided_le csp a xi xj
        · simp only [hl, if_neg, not_false_iff]
          exact le_trans (ih _ _) (revise_undecided_le csp a xi xj)
      · simp only [Bool.not_eq_true] at hr
        simp only [hr, Bool.false_eq_true, if_neg, not_false_iff]
        exact le_trans (ih _ _) (revise_undecided_le csp a xi xj)

theorem select_some_spec {V α : Type} (a : Assignment V α) (u : V)
    (hu : select_unassigned_variable a = some u) :
    ∃ du, (u, du) ∈ a ∧ 1 < du.length := by
  cases hf : a.filter (fun p => 1 < p.2.length) with
  | nil =>
    rw [select_unassigned_variable, hf] at hu
    cases hu
  | cons x xs =>
    rw [select_unassigned_variable, hf] at hu
    have hm := (foldl_min_mem_le xs x).1
    rw [← hf] at hm
    have hma := List.mem_filter.1 hm
    have hu1 : (xs.foldl (fun best p => if p.2.length < best.2.length then p else best) x).1
        = u := Option.some.inj hu
    refine ⟨(xs.foldl (fun best p => if p.2.length < best.2.length then p else best) x).2,
      ?_, of_decide_eq_true hma.2⟩
    rw [← hu1]
    exact hma.1

theorem undecidedCount_updD_select {V α : Type} [DecidableEq V]
    (a : Assignment V α) (u : V) (v : α)
    (hnd : (a.map Prod.fst).Nodup)
    (hu : select_unassigned_variable a = some u) :
    undecidedCount (updD a u [v]) < undecidedCount a := by
  rcases select_some_spec a u hu with ⟨du, hmem, hlen⟩
  have hl : lookupD a u = some du := lookupD_eq_some_of_mem_nodup hmem hnd
  rcases lookupD_split a u du hl with ⟨l1, l2, he, hup⟩
  rw [hup [v], he, undecidedCount_append, undecidedCount_append,
      undecidedCount_cons, undecidedCount_cons]
  rw [if_pos hlen, if_neg (by simp : ¬(1 < ([v] : List α).length))]
  omega

theorem inference_undecided_lt {V α : Type} [DecidableEq V] [DecidableEq α]
    (csp : CSP V α) (a : Assignment V α) (u : V) (v : α)
    (hnd : (a.map Prod.fst).Nodup)
    (hu : select_unassigned_variable a = some u) :
    undecidedCount (inference csp (updD a u [v]) (get_all_neighboring_arcs csp u)).1
      < undecidedCount a :=
  lt_of_le_of_lt (inferenceGo_undecided_le csp _ _ _)
    (undecidedCount_updD_select a u v hnd hu)

theorem updD_cons_eq {V β : Type} [DecidableEq V] (k : V) (pv v : β)
    (rest : List (V × β)) : updD ((k, pv) :: rest) k v = (k, v) :: rest := by
  simp [updD]

theorem updD_cons_ne {V β : Type} [DecidableEq V] {pk k : V} (h : ¬pk = k)
    (pv v : β) (rest : List (V × β)) :
    updD ((pk, pv) :: rest) k v = (pk, pv) :: updD rest k v := by
  simp [updD, h]

theorem mem_map_fst_updD {V β : Type} [DecidableEq V] :
    ∀ (l : List (V × β)) (k : V) (v : β) (w : V),
      w ∈ (updD l k v).map Prod.fst → w ∈ l.map Prod.fst ∨ w = k := by
  intro l
  induction l with
  | nil =>
    intro k v w h
    simp [updD] at h
    exact Or.inr h
  | cons p rest ih =>
    intro k v w h
    obtain ⟨pk, pv⟩ := p
    by_cases hp : pk = k
    · subst hp
      rw [updD_cons_eq] at h
      simp only [List.map_cons, List.mem_cons] at h
      rcases h with h | h
      · exact Or.inr h
      · exact Or.inl (List.mem_cons_of_mem _ h)
    · rw [updD_cons_ne hp] at h
      simp only [List.map_cons, List.mem_cons] at h
      rcases h with h | h
      · exact Or.inl (List.mem_cons.2 (Or.inl h))
      · rcases ih k v w h with h2 | h2
        · exact Or.inl (List.mem_cons_of_mem _ h2)
        · exact Or.inr h2

theorem nodup_map_fst_updD {V β : Type} [DecidableEq V] :
    ∀ (l : List (V × β)) (k : V) (v : β),
      (l.map Prod.fst).Nodup → ((updD l k v).map Prod.fst).Nodup := by
  intro l
  induction l with
  | nil => intro k v _; simp [updD]
  | cons p rest ih =>
    intro k v hnd
    obtain ⟨pk, pv⟩ := p
    simp only [List.map_cons, List.nodup_cons] at hnd
    by_cases hp : pk = k
    · subst hp
      rw [updD_cons_eq]
      simp only [List.map_cons, List.nodup_cons]
      exact hnd
    · rw [updD_cons_ne hp]
      simp only [List.map_cons, List.nodup_cons]
      refine ⟨fun hmem => ?_, ih k v hnd.2⟩
      rcases mem_map_fst_updD rest k v pk hmem with h | h
      · exact hnd.1 h
      · exact hp h

theorem revise_nodup {V α : Type} [DecidableEq V] [DecidableEq α]
    (csp : CSP V α) (a : Assignment V α) (i j : V)
    (hnd : (a.map Prod.fst).Nodup) :
    (((revise csp a i j).1).map Prod.fst).Nodup :=
  nodup_map_fst_updD a i _ hnd

theorem inferenceGo_nodup {V α : Type} [DecidableEq V] [DecidableEq α]
    (csp : CSP V α) :
    ∀ (fuel : Nat) (a : Assignment V α) (q : List (V × V)),
      (a.map Prod.fst).Nodup →
      (((inferenceGo csp fuel a q).1).map Prod.fst).Nodup := by
  intro fuel
  induction fuel with
  | zero => intro a q hnd; exact hnd
  | succ fuel ih =>
    intro a q hnd
    match q with
    | [] => exact hnd
    | (xi, xj) :: rest =>
      simp only [inferenceGo]
      by_cases hr : (revise csp a xi xj).2
      · simp only [hr, if_pos]
        by_cases hl : (getD (revise csp a xi xj).1 xi []).length = 0
        · simp only [hl, if_pos]
          exact revise_nodup csp a xi xj hnd
        · simp only [hl, if_neg, not_false_iff]
          exact ih _ _ (revise_nodup csp a xi xj hnd)
      · simp only [Bool.not_eq_true] at hr
        simp only [hr, Bool.false_eq_true, if_neg, not_false_iff]
        exact ih _ _ (revise_nodup csp a xi xj hnd)

theorem undecidedCount_eq_zero_iff {V α : Type} (a : Assignment V α) :
    undecidedCount a = 0 ↔ assignment_is_done a = true := by
  rw [undecidedCount, List.length_eq_zero, List.filter_eq_nil_iff,
      assignment_is_done, List.all_eq_true]
  constructor
  · intro h p hp
    have h2 := h p hp
    simp only [decide_eq_true_eq] at h2 ⊢
    omega
  · intro h p hp
    have h2 := h p hp
    simp only [decide_eq_true_eq] at h2 ⊢
    omega

theorem tryValues_congr {V α : Type} [DecidableEq V] [DecidableEq α]
    (bt1 bt2 : Assignment V α → Option (Assignment V α)) (csp : CSP V α)
    (a : Assignment V α) (u : V) :
    ∀ vs : List α,
      (∀ v ∈ vs,
        bt1 (inference csp (updD a u [v]) (get_all_neighboring_arcs csp u)).1
          = bt2 (inference csp (updD a u [v]) (get_all_neighboring_arcs csp u)).1) →
      tryValues bt1 csp a u vs = tryValues bt2 csp a u vs := by
  intro vs
  induction vs with
  | nil => intro _; rfl
  | cons v vs ih =>
    intro h
    simp only [tryValues]
    rw [h v (List.mem_cons_self _ _), ih (fun w hw => h w (List.mem_cons_of_mem _ hw))]

theorem backtrackFuel_fuel_indep {V α : Type} [DecidableEq V] [DecidableEq α]
    (csp : CSP V α) :
    ∀ (n : Nat) (a : Assignment V α) (f : Nat),
      (a.map Prod.fst).Nodup → undecidedCount a ≤ n →
      backtrackFuel csp (undecidedCount a + 1 + f) a
        = backtrackFuel csp (undecidedCount a + 1) a := by
  intro n
  induction n with
  | zero =>
    intro a f hnd hle
    have h0 : undecidedCount a = 0 := Nat.le_zero.1 hle
    have hd : assignment_is_done a = true := (undecidedCount_eq_zero_iff a).1 h0
    rw [h0, show 0 + 1 + f = f + 1 from by omega]
    simp [backtrackFuel, hd]
  | succ n ih =>
    intro a f hnd hle
    rw [Nat.add_right_comm (undecidedCount a) 1 f]
    simp only [backtrackFuel]
    by_cases hd : assignment_is_done a
    · simp [hd]
    · simp only [Bool.not_eq_true] at hd
      simp only [hd, Bool.false_eq_true, if_neg, not_false_iff]
      cases hu : select_unassigned_variable a with
      | none => rfl
      | some u =>
        apply tryValues_congr
        intro v _
        have hlt : undecidedCount
            (inference csp (updD a u [v]) (get_all_neighboring_arcs csp u)).1
              < undecidedCount a :=
          inference_undecided_lt csp a u v hnd hu
        have hndb : (((inference csp (updD a u [v])
            (get_all_neighboring_arcs csp u)).1).map Prod.fst).Nodup :=
          inferenceGo_nodup csp _ _ _ (nodup_map_fst_updD a u [v] hnd)
        have e1 : backtrackFuel csp (undecidedCount a + f)
            (inference csp (updD a u [v]) (get_all_neighboring_arcs csp u)).1
            = backtrackFuel csp
                (undecidedCount (inference csp (updD a u [v])
                  (get_all_neighboring_arcs csp u)).1 + 1)
                (inference csp (updD a u [v]) (get_all_neighboring_arcs csp u)).1 := by
          rw [show undecidedCount a + f
              = undecidedCount (inference csp (updD a u [v])
                  (get_all_neighboring_arcs csp u)).1 + 1
                + (undecidedCount a + f
                    - undecidedCount (inference csp (updD a u [v])
                        (get_all_neighboring_arcs csp u)).1 - 1) from by omega]
          exact ih _ _ hndb (by omega)
        have e2 : backtrackFuel csp (undecidedCount a)
            (inference csp (updD a u [v]) (get_all_neighboring_arcs csp u)).1
            = backtrackFuel csp
                (undecidedCount (inference csp (updD a u [v])
                  (get_all_neighboring_arcs csp u)).1 + 1)
                (inference csp (updD a u [v]) (get_all_neighboring_arcs csp u)).1 := by
          rw [show undecidedCount a
              = undecidedCount (inference csp (updD a u [v])
                  (get_all_neighboring_arcs csp u)).1 + 1
                + (undecidedCount a
                    - undecidedCount (inference csp (updD a u [v])
                        (get_all_neighboring_arcs csp u)).1 - 1) from by omega]
          exact ih _ _ hndb (by omega)
        exact e1.trans e2.symm

/-- Claim C9: termination and depth bound of backtrack.  The number of
undecided variables is at most the number of variables of the assignment;
each recursive call of backtrack (made after fixing the selected variable
and running AC-3 successfully or not) is on an assignment with strictly
fewer undecided variables than its caller; and the recursion depth bound
undecidedCount + 1 is exact: any larger fuel computes the same result, so
backtrack terminates within one level per variable decision. -/
theorem backtrack_decrease_and_termination (V α : Type) [DecidableEq V]
    [DecidableEq α] (csp : CSP V α) (a : Assignment V α)
    (hnd : (a.map Prod.fst).Nodup) :
    undecidedCount a ≤ a.length
    ∧ (∀ (u : V) (v : α) (copy : Assignment V α) (ok : Bool),
        assignment_is_done a = false →
        select_unassigned_variable a = some u →
        inference csp (updD a u [v]) (get_all_neighboring_arcs csp u) = (copy, ok) →
        undecidedCount copy < undecidedCount a)
    ∧ ∀ f : Nat, backtrackFuel csp (undecidedCount a + 1 + f) a = backtrack csp a := by
  refine ⟨List.length_filter_le _ _, fun u v copy ok _hdone hu hinf => ?_, fun f => ?_⟩
  · have h := inference_undecided_lt csp a u v hnd hu
    rw [hinf] at h
    exact h
  · exact backtrackFuel_fuel_indep csp (undecidedCount a) a f hnd le_rfl

/-- Claim C9 (witness): on csp5 the single recursive call strictly
decreases the undecided count, and any surplus fuel computes the same
search result as backtrack. -/
theorem backtrack_decrease_and_termination_witness :
    undecidedCount [((0 : Nat), [1])] < undecidedCount csp5.domains
    ∧ backtrackFuel csp5 (undecidedCount csp5.domains + 1 + 3) csp5.domains
        = backtrack csp5 csp5.domains := by
  have h := backtrack_decrease_and_termination Nat Nat csp5 csp5.domains (by decide)
  exact ⟨h.2.1 0 1 [(0, [1])] true (by decide) (by decide) (by decide), h.2.2 3⟩

end CSPSolver
